import Mathlib

/-!
Verification of the minigrep library (src/lib.rs).

Strings are modelled as `List Char`.  Rust's `str::lines` splits the buffer
at `'\n'`, removes one trailing `'\r'` from every newline-terminated line
(so `"\r\n"` also acts as a line ending), and treats the final line ending
as optional.  `str::contains` is contiguous-substring containment, modelled
by list infixes.  `str::to_lowercase` is modelled character-wise with
`Char.toLower`.  `Config::new` consumes an argument iterator, modelled as a
list, and reads the environment, modelled as an injected lookup function
where `none` means the variable is unset (`env::var` returning `Err`).
-/

namespace Minigrep

/-- Splits a character list at every `'\n'`, keeping empty segments; the
empty list yields `[[]]`.  This is the cutting step of `str::lines`. -/
def splitOnNewline : List Char → List (List Char)
  | [] => [[]]
  | c :: rest =>
    if c = '\n' then [] :: splitOnNewline rest
    else (c :: (splitOnNewline rest).headI) :: (splitOnNewline rest).tail

/-- Removes one trailing carriage return: the `'\r'` of a `"\r\n"` line
ending, stripped by `str::lines` from a newline-terminated line. -/
def stripCR (l : List Char) : List Char :=
  if l.getLast? = some '\r' then l.dropLast else l

/-- Final assembly of `str::lines` from the `'\n'`-split segments: every
segment but the last was newline-terminated and loses one trailing `'\r'`;
the last segment was not newline-terminated, is kept verbatim, and is
dropped when empty (the final line ending is optional). -/
def finishLines : List (List Char) → List (List Char)
  | [] => []
  | [l] => if l = [] then [] else [l]
  | l :: ls => stripCR l :: finishLines ls

/-- Models Rust `str::lines`. -/
def rustLines (s : List Char) : List (List Char) :=
  finishLines (splitOnNewline s)

/-- Models `search` from src/lib.rs: keeps, in order, the lines of
`contents` that contain `query` as a contiguous substring. -/
def search (query contents : List Char) : List (List Char) :=
  (rustLines contents).filter (fun l => decide (query <:+: l))

/-- Models `str::to_lowercase` as a character-wise lowercase map
(`Char.toLower` lowercases exactly the basic latin letters; Unicode
multi-character expansions are outside this model). -/
def toLowercase (s : List Char) : List Char :=
  s.map Char.toLower

/-- Models `search_case_insensitive` from src/lib.rs: the query is
lowercased once, then the lines whose lowercased text contains it are kept
in order; the returned lines are the original, non-lowercased ones. -/
def search_case_insensitive (query contents : List Char) : List (List Char) :=
  let query := toLowercase query
  (rustLines contents).filter (fun s => decide (query <:+: toLowercase s))

/-- Models the `Config` struct from src/lib.rs. -/
structure Config where
  query : String
  filename : String
  case_sensitive : Bool
deriving DecidableEq

/-- Models `Config::new` from src/lib.rs.  The argument iterator is a list:
`args.tail` performs the `args.next()` that discards the program name, then
the query and the filename are taken in order, each `None` short-circuiting
into the corresponding error.  `case_sensitive` is
`env::var("CASE_INSENSITIVE").is_err()`: true exactly when the lookup
returns `none`. -/
def Config.new (env : String → Option String) (args : List String) :
    Except String Config :=
  match args.tail with
  | [] => Except.error "missing query"
  | query :: rest =>
    match rest with
    | [] => Except.error "missing filename"
    | filename :: _ =>
      Except.ok { query := query, filename := filename,
                  case_sensitive := (env "CASE_INSENSITIVE").isNone }

theorem splitOnNewline_ne_nil (s : List Char) : splitOnNewline s ≠ [] := by
  cases s with
  | nil => simp [splitOnNewline]
  | cons c rest =>
    simp only [splitOnNewline]
    split <;> simp

theorem newline_not_mem_splitOnNewline (s : List Char) :
    ∀ l ∈ splitOnNewline s, '\n' ∉ l := by
  induction s with
  | nil =>
    intro l hl
    simp [splitOnNewline] at hl
    simp [hl]
  | cons c rest ih =>
    intro l hl
    by_cases hc : c = '\n'
    · rw [splitOnNewline, if_pos hc] at hl
      rcases List.mem_cons.mp hl with rfl | h
      · simp
      · exact ih l h
    · rw [splitOnNewline, if_neg hc] at hl
      cases hsp : splitOnNewline rest with
      | nil => exact absurd hsp (splitOnNewline_ne_nil rest)
      | cons a as =>
        rw [hsp] at hl
        simp only [List.headI, List.tail_cons] at hl
        rcases List.mem_cons.mp hl with rfl | h
        · intro hmem
          rcases List.mem_cons.mp hmem with h1 | h1
          · exact hc h1.symm
          · exact ih a (hsp ▸ List.mem_cons_self a as) h1
        · exact ih l (hsp ▸ List.mem_cons_of_mem a h)

theorem stripCR_subset (l : List Char) : stripCR l ⊆ l := by
  unfold stripCR
  split
  · exact (List.dropLast_sublist l).subset
  · exact fun x hx => hx

theorem finishLines_mem_subset (ls : List (List Char)) :
    ∀ l ∈ finishLines ls, ∃ m ∈ ls, l ⊆ m := by
  induction ls with
  | nil => intro l hl; simp [finishLines] at hl
  | cons a as ih =>
    intro l hl
    cases as with
    | nil =>
      simp only [finishLines] at hl
      split at hl
      · simp at hl
      · simp only [List.mem_singleton] at hl
        exact ⟨a, by simp, fun x hx => hl ▸ hx⟩
    | cons b bs =>
      simp only [finishLines] at hl
      rcases List.mem_cons.mp hl with rfl | h
      · exact ⟨a, by simp, stripCR_subset a⟩
      · obtain ⟨m, hm, hsub⟩ := ih l h
        exact ⟨m, List.mem_cons_of_mem a hm, hsub⟩

theorem newline_not_mem_rustLines (s : List Char) :
    ∀ l ∈ rustLines s, '\n' ∉ l := by
  intro l hl hmem
  obtain ⟨m, hm, hsub⟩ := finishLines_mem_subset (splitOnNewline s) l hl
  exact newline_not_mem_splitOnNewline s m hm (hsub hmem)

theorem splitOnNewline_append (m rest : List Char) (hm : '\n' ∉ m) :
    splitOnNewline (m ++ '\n' :: rest) = m :: splitOnNewline rest := by
  induction m with
  | nil => simp [splitOnNewline]
  | cons c m ih =>
    have hc : c ≠ '\n' := by intro h; exact hm (by simp [h])
    have hm' : '\n' ∉ m := by intro h; exact hm (by simp [h])
    simp only [List.cons_append, splitOnNewline, if_neg hc, List.append_eq]
    rw [ih hm']
    simp [List.headI]

theorem finishLines_cons (l : List Char) (ls : List (List Char)) (h : ls ≠ []) :
    finishLines (l :: ls) = stripCR l :: finishLines ls := by
  cases ls with
  | nil => exact absurd rfl h
  | cons a as => rfl

theorem rustLines_append (m rest : List Char) (hm : '\n' ∉ m) :
    rustLines (m ++ '\n' :: rest) = stripCR m :: rustLines rest := by
  unfold rustLines
  rw [splitOnNewline_append m rest hm,
    finishLines_cons m _ (splitOnNewline_ne_nil rest)]

theorem stripCR_concat_cr (m : List Char) : stripCR (m ++ ['\r']) = m := by
  unfold stripCR
  rw [if_pos (List.getLast?_concat m)]
  exact List.dropLast_concat

theorem toLower_eq_newline {c : Char} (h : Char.toLower c = '\n') : c = '\n' := by
  simp only [Char.toLower] at h
  split at h
  · rename_i hc
    exfalso
    obtain ⟨h1, h2⟩ := hc
    generalize c.toNat = n at h1 h2 h
    interval_cases n <;> exact absurd h (by decide)
  · exact h

theorem newline_not_mem_toLowercase {l : List Char} (h : '\n' ∉ l) :
    '\n' ∉ toLowercase l := by
  intro hmem
  obtain ⟨c, hc, heq⟩ := List.mem_map.mp hmem
  exact h (toLower_eq_newline heq ▸ hc)

theorem newline_mem_toLowercase {q : List Char} (h : '\n' ∈ q) :
    '\n' ∈ toLowercase q :=
  List.mem_map.mpr ⟨'\n', h, by decide⟩

theorem mem_of_mem_substring {q l : List Char} (hql : q <:+: l) {c : Char}
    (hc : c ∈ q) : c ∈ l := by
  obtain ⟨s, t, rfl⟩ := hql
  simp only [List.mem_append]
  tauto

example : search "duct".data "Rust:\nsafe, fast, productive.\nPick three.".data
    = ["safe, fast, productive.".data] := by decide

example : search "u".data "Rust:\nsafe, fast, productive.\nPick three.".data
    = ["Rust:".data, "safe, fast, productive.".data] := by decide

example : search_case_insensitive "RuSt".data
    "Rust:\nsafe, fast, productive.\nPick three.,\nTrust me.".data
    = ["Rust:".data, "Trust me.".data] := by decide

example : rustLines "a\r\r\n".data = ["a\r".data] := by decide

example : rustLines "a\r".data = ["a\r".data] := by decide

example : rustLines "\n".data = [[]] := by decide

example : rustLines "".data = [] := by decide

example : Config.new (fun _ => none) ["app", "q", "f"]
    = Except.ok ⟨"q", "f", true⟩ := rfl

example : Config.new (fun _ => some "") ["app", "q", "f"]
    = Except.ok ⟨"q", "f", false⟩ := rfl

example : Config.new (fun _ => none) ["app"] = Except.error "missing query" := rfl

example : Config.new (fun _ => none) [] = Except.error "missing query" := rfl

example : Config.new (fun _ => none) ["app", "q"] = Except.error "missing filename" := rfl

/-- C1: the case-sensitive `search` is sound — every returned line contains
the query as a contiguous substring — and complete — every line of the body
containing the query is returned; the output is a sublist of the body's
lines, so source order is preserved and no source line occurrence is
duplicated (each line's multiplicity never exceeds its multiplicity in the
body). -/
theorem search_sound_complete_ordered (q t : List Char) :
    (∀ l ∈ search q t, q <:+: l) ∧
    (∀ l ∈ rustLines t, q <:+: l → l ∈ search q t) ∧
    (search q t).Sublist (rustLines t) ∧
    (∀ l, (search q t).count l ≤ (rustLines t).count l) := by
  refine ⟨?_, ?_, ?_, ?_⟩
  · intro l hl
    simpa using (List.mem_filter.mp hl).2
  · intro l hl hq
    exact List.mem_filter.mpr ⟨hl, by simpa using hq⟩
  · exact List.filter_sublist _
  · intro l
    exact (List.filter_sublist _).count_le l

/-- C1 witness: completeness applied at a concrete query and body. -/
theorem search_sound_complete_ordered_witness :
    "safe, fast, productive.".data
      ∈ search "duct".data "Rust:\nsafe, fast, productive.\nPick three.".data :=
  (search_sound_complete_ordered "duct".data
      "Rust:\nsafe, fast, productive.\nPick three.".data).2.1
    "safe, fast, productive.".data (by decide) (by decide)

/-- C2: a line is returned by `search_case_insensitive` exactly when it is a
line of the body whose lowercasing contains the lowercased query; the output
is a sublist of the body's original (non-lowercased) lines, hence every
returned line is original text in source order. -/
theorem search_case_insensitive_spec (q t : List Char) :
    (∀ l, l ∈ search_case_insensitive q t ↔
      l ∈ rustLines t ∧ toLowercase q <:+: toLowercase l) ∧
    (search_case_insensitive q t).Sublist (rustLines t) := by
  constructor
  · intro l
    simp only [search_case_insensitive, List.mem_filter, decide_eq_true_eq]
  · exact List.filter_sublist _

/-- C2 witness: the membership equivalence applied at a concrete query and
body, including a line whose casing differs from the query's. -/
theorem search_case_insensitive_spec_witness :
    "Trust me.".data ∈ search_case_insensitive "RuSt".data
      "Rust:\nsafe, fast, productive.\nPick three.,\nTrust me.".data :=
  ((search_case_insensitive_spec "RuSt".data
      "Rust:\nsafe, fast, productive.\nPick three.,\nTrust me.".data).1
    "Trust me.".data).mpr (by decide)

/-- C3: `Config::new` discards the first argument, then fails with
`missing query` exactly when at most one argument was supplied (the query
check runs first and short-circuits, so an empty argument list also reports
`missing query`, never `missing filename`), and fails with
`missing filename` exactly when precisely two arguments were supplied. -/
theorem config_new_error_spec (env : String → Option String)
    (args : List String) :
    (Config.new env args = Except.error "missing query" ↔ args.length ≤ 1) ∧
    (Config.new env args = Except.error "missing filename" ↔
      args.length = 2) := by
  match args with
  | [] => refine ⟨by simp [Config.new], by simp [Config.new]⟩
  | [p] => refine ⟨by simp [Config.new], by simp [Config.new]⟩
  | [p, q] => refine ⟨by simp [Config.new], by simp [Config.new]⟩
  | p :: q :: f :: rest =>
    refine ⟨by simp [Config.new], by simp [Config.new]⟩

/-- C3 witness: the `missing query` equivalence applied to a one-element
argument list. -/
theorem config_new_error_spec_witness :
    Config.new (fun _ => none) ["app"] = Except.error "missing query" :=
  (config_new_error_spec (fun _ => none) ["app"]).1.mpr (by decide)

/-- C4: whenever `Config::new` succeeds, `case_sensitive` is true exactly
when the environment variable `CASE_INSENSITIVE` is unset, and false
whenever it is set to any value, including the empty string; in the model
the environment lookup is a total function, so the check has no error
path. -/
theorem config_case_sensitive_env (env : String → Option String)
    (args : List String) (c : Config)
    (h : Config.new env args = Except.ok c) :
    (c.case_sensitive = true ↔ env "CASE_INSENSITIVE" = none) ∧
    (∀ v, env "CASE_INSENSITIVE" = some v → c.case_sensitive = false) := by
  match args with
  | [] => simp [Config.new] at h
  | [p] => simp [Config.new] at h
  | [p, q] => simp [Config.new] at h
  | p :: q :: f :: rest =>
    simp only [Config.new, List.tail_cons, Except.ok.injEq] at h
    subst h
    refine ⟨by simp [Option.isNone_iff_eq_none], ?_⟩
    intro v hv
    simp [hv]

/-- C4 witness: a successful construction under an empty environment has a
case-sensitive configuration. -/
theorem config_case_sensitive_env_witness :
    (fun _ => (none : Option String)) "CASE_INSENSITIVE" = none :=
  (config_case_sensitive_env (fun _ => none) ["app", "q", "f"]
      ⟨"q", "f", true⟩ rfl).1.mp rfl

/-- C5: for every program name, query and filename, `Config::new` on the
three-element argument list succeeds and the `query` and `filename` fields
equal the inputs; the result is a total `Except`, so no partial
configuration is produced on the failure paths. -/
theorem config_new_success (env : String → Option String) (p q f : String) :
    Config.new env [p, q, f]
      = Except.ok ⟨q, f, (env "CASE_INSENSITIVE").isNone⟩ := rfl

/-- C6: with the empty query, `search` returns every line of the body
unchanged and in order, because the empty list is a substring of every
line. -/
theorem search_empty_query (t : List Char) : search [] t = rustLines t := by
  unfold search
  rw [List.filter_eq_self]
  intro l _
  exact decide_eq_true ⟨[], l, by simp⟩

/-- C7: when no line of the body contains the query (in the respective
matching sense of each filter), both filters return the empty list; both
are total functions into lists, so neither has an error outcome. -/
theorem search_absent_query (q t : List Char)
    (h1 : ∀ l ∈ rustLines t, ¬ q <:+: l)
    (h2 : ∀ l ∈ rustLines t, ¬ toLowercase q <:+: toLowercase l) :
    search q t = [] ∧ search_case_insensitive q t = [] := by
  constructor
  · unfold search
    rw [List.filter_eq_nil_iff]
    intro l hl
    simpa using h1 l hl
  · simp only [search_case_insensitive]
    rw [List.filter_eq_nil_iff]
    intro l hl
    simpa using h2 l hl

/-- C7 witness: a query absent from a concrete body yields empty results
from both filters. -/
theorem search_absent_query_witness :
    search "xyz".data "abc\ndef".data = []
      ∧ search_case_insensitive "xyz".data "abc\ndef".data = [] :=
  search_absent_query "xyz".data "abc\ndef".data (by decide) (by decide)

/-- C8: both filters are deterministic — equal queries and equal bodies give
identical results.  Both are embedded as pure functions of their two
arguments, which is exactly the absence of observable side effects in the
model. -/
theorem search_deterministic (q₁ t₁ q₂ t₂ : List Char)
    (hq : q₁ = q₂) (ht : t₁ = t₂) :
    search q₁ t₁ = search q₂ t₂ ∧
    search_case_insensitive q₁ t₁ = search_case_insensitive q₂ t₂ := by
  subst hq
  subst ht
  exact ⟨rfl, rfl⟩

/-- C8 witness: determinism applied at a concrete query and body. -/
theorem search_deterministic_witness :
    search "a".data "a\nb".data = search "a".data "a\nb".data ∧
    search_case_insensitive "a".data "a\nb".data
      = search_case_insensitive "a".data "a\nb".data :=
  search_deterministic "a".data "a\nb".data "a".data "a\nb".data rfl rfl

/-- C9: arguments beyond the third are ignored — `Config::new` succeeds
with the same query and filename whatever the surplus arguments are, and no
error is raised for them. -/
theorem config_new_extra_args (env : String → Option String)
    (p q f : String) (rest : List String) :
    Config.new env (p :: q :: f :: rest)
      = Except.ok ⟨q, f, (env "CASE_INSENSITIVE").isNone⟩ := rfl

/-- C10: no line returned by either filter contains a newline character;
the `'\r'` of a `"\r\n"` pair is stripped together with its `'\n'` (a body
`m ++ "\r\n" ++ rest` yields the line `m` when `m` has no newline); and any
query containing `'\n'` yields an empty result from both filters. -/
theorem no_line_terminator_in_results (q t m rest : List Char)
    (hm : '\n' ∉ m) :
    (∀ l ∈ search q t, '\n' ∉ l) ∧
    (∀ l ∈ search_case_insensitive q t, '\n' ∉ l) ∧
    ('\n' ∈ q → search q t = [] ∧ search_case_insensitive q t = []) ∧
    rustLines (m ++ '\r' :: '\n' :: rest) = m :: rustLines rest := by
  refine ⟨?_, ?_, ?_, ?_⟩
  · intro l hl
    exact newline_not_mem_rustLines t l (List.mem_filter.mp hl).1
  · intro l hl
    exact newline_not_mem_rustLines t l (List.mem_filter.mp hl).1
  · intro hq
    constructor
    · unfold search
      rw [List.filter_eq_nil_iff]
      intro l hl
      simp only [decide_eq_true_eq]
      intro hinf
      exact newline_not_mem_rustLines t l hl (mem_of_mem_substring hinf hq)
    · simp only [search_case_insensitive]
      rw [List.filter_eq_nil_iff]
      intro l hl
      simp only [decide_eq_true_eq]
      intro hinf
      exact newline_not_mem_toLowercase (newline_not_mem_rustLines t l hl)
        (mem_of_mem_substring hinf (newline_mem_toLowercase hq))
  · have hmr : '\n' ∉ m ++ ['\r'] := by
      intro hmem
      rcases List.mem_append.mp hmem with h | h
      · exact hm h
      · simp at h
    calc rustLines (m ++ '\r' :: '\n' :: rest)
        = rustLines ((m ++ ['\r']) ++ '\n' :: rest) := by simp
      _ = stripCR (m ++ ['\r']) :: rustLines rest := rustLines_append _ _ hmr
      _ = m :: rustLines rest := by rw [stripCR_concat_cr]

/-- C10 witness: a query containing a newline produces empty results, at a
concrete query, body and carriage-return decomposition. -/
theorem no_line_terminator_in_results_witness :
    ('\n' ∈ "a\nb".data) ∧
    (search "a\nb".data "x\ny".data = []
      ∧ search_case_insensitive "a\nb".data "x\ny".data = []) :=
  ⟨by decide,
    (no_line_terminator_in_results "a\nb".data "x\ny".data "ab".data
      "cd".data (by decide)).2.2.1 (by decide)⟩

end Minigrep
